import Mathlib

/-!
# Verification of the sentinelPot harmonic-regression core

Shallow embedding of the computational core of the `sentinelPot` package:
the guided filter (`guided_filter.py`), the time-series aligner, harmonic
design-matrix builder and per-pixel Lasso fitters (`preprocess_level3.py`),
and the bounded work pool used by the batch drivers.

Conventions of the embedding:
* machine floats normalised by `read_img` (no-data mapped to NaN) are
  modelled as `Option ℚ`, `none` standing for NaN;
* raw band pixels (where a NaN sentinel must be *distinguished* from
  numeric values by `np.isnan` vs `==`) are modelled by the type `Pix`;
* external library calls (`sklearn.linear_model.Lasso.fit`,
  `cv2.boxFilter`, `np.cos`) are abstracted as function parameters: the
  theorems quantify over them, which captures exactly that both code paths
  invoke the same deterministic library routine on the same data.
-/

namespace SentinelPot

/-! ## Calendar: `_get_date_doy` (`date.timetuple().tm_yday`) -/

/-- A calendar date (year, month, day). -/
structure Date where
  year : ℕ
  month : ℕ
  day : ℕ
deriving DecidableEq, Repr

/-- Gregorian leap-year rule, as implemented by Python's `datetime`. -/
def isLeap (y : ℕ) : Bool :=
  (y % 4 == 0 && y % 100 != 0) || (y % 400 == 0)

/-- Number of days in a month of a given year. -/
def daysInMonth (y m : ℕ) : ℕ :=
  if m = 2 then (if isLeap y then 29 else 28)
  else if m = 4 ∨ m = 6 ∨ m = 9 ∨ m = 11 then 30
  else 31

/-- Day of year of a date: `date.timetuple().tm_yday` in `_get_date_doy`. -/
def doyOf (dt : Date) : ℕ :=
  ((List.range dt.month).filter (fun m => 1 ≤ m)).foldl
    (fun acc m => acc + daysInMonth dt.year m) 0 + dt.day

/-- Sort key of a date, increasing in calendar order (Python `dates.sort()`). -/
def dateKey (dt : Date) : ℕ :=
  dt.year * 10000 + dt.month * 100 + dt.day

/-- Stable ascending sort by a numeric key, modelling Python's `sort()`. -/
def sortByKey (key : α → ℕ) (l : List α) : List α :=
  l.insertionSort (fun a b => key a ≤ key b)

/-! ## `_adjust_doy` and `_get_doy` (preprocess_level3.py lines 122–161) -/

/-- Model of `_adjust_doy`: subtract `start` from every DOY, then wrap any
negative value forward by `start + freq - start` (i.e. by `freq`). -/
def adjustDoy (doys : List ℤ) (start : ℤ) (freq : ℤ) : List ℤ :=
  let doys := doys.map (fun doy => doy - start)
  doys.map (fun doy => if doy ≥ 0 then doy else doy + start + freq - start)

/-- Ascending sort on integers, modelling the `doys_check.sort()` copy. -/
def sortInts (l : List ℤ) : List ℤ :=
  l.insertionSort (· ≤ ·)

/-- Day-of-year sequence of the date-sorted series, before any adjustment
(`dates.sort()` followed by the DOY map in `_get_doy`). -/
def doySeq (dates : List Date) : List ℤ :=
  (sortByKey dateKey dates).map (fun dt => (doyOf dt : ℤ))

/-- Model of `_get_doy`: sort the dates ascending, take day-of-year of each,
and if the DOY sequence is not already ascending, adjust it with
`_adjust_doy` using the first DOY as start. -/
def getDoy (dates : List Date) (freq : ℤ) : List ℤ :=
  if sortInts (doySeq dates) = doySeq dates then doySeq dates
  else adjustDoy (doySeq dates) ((doySeq dates).headD 0) freq

/-! ## `_getVariable` (preprocess_level3.py lines 164–183)

The numpy constants and routines `np.pi` and `np.cos` are abstracted as the
parameters `piQ` and `cosQ`, so the matrix entries are exact expressions in
them.  The source builds the full cosine matrix
`cos((2·π·ceil(j/2)·t)/freq − (j % 2)·π/2)` and then overwrites column 0
with the raw day value; the conditional below is the resulting matrix.
`harmonic_fitting` invokes it with `n = 1 + num_pair * 2`, giving shape
`(len(day_arr), 1 + 2·num_pair)` at type level. -/

def getVariable (piQ : ℚ) (cosQ : ℚ → ℚ) (freq : ℚ) (m : ℕ) (dayArr : Fin m → ℚ)
    (n : ℕ) : Matrix (Fin m) (Fin n) ℚ :=
  Matrix.of fun i j =>
    if (j : ℕ) = 0 then dayArr i
    else cosQ ((2 * piQ * ((⌈(j : ℕ) / (2 : ℚ)⌉ : ℤ) : ℚ) * dayArr i) / freq
      - (((j : ℕ) % 2 : ℕ) : ℚ) * piQ / 2)

/-! ## Per-pixel Lasso fit (`harmonic_fitting` lines 280–298 and
`_cal_row` in `harmonic_fitting_br`, lines 367–391)

Pixel series are those produced by `read_img`: no-data already normalised
to NaN, modelled as `Option ℚ` with `none` standing for NaN.  The call
`Lasso(max_iter=10000, alpha=alpha).fit(x_new, y_new)` followed by reading
`.intercept_` and `.coef_` is abstracted as a deterministic function
`lasso : List (List ℚ) → List ℚ → ℚ × List ℚ` from (design rows kept,
observations kept) to (intercept, coefficients); both execution strategies
invoke the same function on the same data. -/

/-- Body of the per-pixel fit inside `harmonic_fitting`: keep the
(design-row, observation) pairs whose observation is not NaN; if any
observation remains, fit and emit `intercept :: coefficients`; otherwise
emit `np.insert(nan-vector-of-length-(1+2k), 0, nan)`, i.e. `2 + 2k` NaNs. -/
def fitPixelSeq (lasso : List (List ℚ) → List ℚ → ℚ × List ℚ)
    (x : List (List ℚ)) (numPair : ℕ) (y : List (Option ℚ)) : List (Option ℚ) :=
  let valid := (x.zip y).filterMap (fun p => p.2.map (fun v => (p.1, v)))
  let xNew := valid.map Prod.fst
  let yNew := valid.map Prod.snd
  if yNew.length ≠ 0 then
    let fit := lasso xNew yNew
    (fit.1 :: fit.2).map some
  else
    none :: List.replicate (1 + numPair * 2) none

/-- Body of the per-pixel fit inside `_cal_row` of `harmonic_fitting_br`;
the source duplicates the code of the per-pixel fit of `harmonic_fitting`
verbatim, and so does this definition. -/
def fitPixelPar (lasso : List (List ℚ) → List ℚ → ℚ × List ℚ)
    (x : List (List ℚ)) (numPair : ℕ) (y : List (Option ℚ)) : List (Option ℚ) :=
  let valid := (x.zip y).filterMap (fun p => p.2.map (fun v => (p.1, v)))
  let xNew := valid.map Prod.fst
  let yNew := valid.map Prod.snd
  if yNew.length ≠ 0 then
    let fit := lasso xNew yNew
    (fit.1 :: fit.2).map some
  else
    none :: List.replicate (1 + numPair * 2) none

/-- Inner column loop of `harmonic_fitting`: start from
`np.zeros((2 + num_pair*2, n_cols))` (stored column-major here: for each
column a coefficient vector of zeros) and fill every column of
`range(n_cols)` with its pixel fit.  `valuesRow` is
`np.array([value[row_each, :] for value in values])`: one row slice per
observation image. -/
def fitRowSeq (lasso : List (List ℚ) → List ℚ → ℚ × List ℚ)
    (x : List (List ℚ)) (numPair nCols : ℕ)
    (valuesRow : List (List (Option ℚ))) : List (List (Option ℚ)) :=
  (List.range nCols).foldl
    (fun coefsRow col =>
      coefsRow.set col
        (fitPixelSeq lasso x numPair (valuesRow.map (fun v => v.getD col none))))
    (List.replicate nCols (List.replicate (2 + numPair * 2) (some 0)))

/-- Model of `_cal_row` (without its final memmap write): the same column
loop, over the column list `cols` that the worker receives (`range_col` at
the call site). -/
def calRow (lasso : List (List ℚ) → List ℚ → ℚ × List ℚ)
    (x : List (List ℚ)) (numPair nCols : ℕ)
    (valuesRow : List (List (Option ℚ))) (cols : List ℕ) : List (List (Option ℚ)) :=
  cols.foldl
    (fun coefsRow col =>
      coefsRow.set col
        (fitPixelPar lasso x numPair (valuesRow.map (fun v => v.getD col none))))
    (List.replicate nCols (List.replicate (2 + numPair * 2) (some 0)))

/-- Row slice of every observation image at row `r`:
`np.array([value[r, :] for value in values])`. -/
def rowSlices (nCols : ℕ) (values : List (ℕ → ℕ → Option ℚ)) (r : ℕ) :
    List (List (Option ℚ)) :=
  values.map (fun img => (List.range nCols).map (fun c => img r c))

/-- Row-threaded fitter of `harmonic_fitting`: `lasso_coefs = np.zeros(...)`,
then for each row in order write that row's coefficients into the output
array.  The output is stored row-major: `grid[r][c]` is the coefficient
vector of pixel `(r, c)` (the numpy array is indexed `[band, row, col]`;
the transposition is presentational only). -/
def harmonicFitting (lasso : List (List ℚ) → List ℚ → ℚ × List ℚ)
    (x : List (List ℚ)) (numPair nRows nCols : ℕ)
    (values : List (ℕ → ℕ → Option ℚ)) : List (List (List (Option ℚ))) :=
  (List.range nRows).foldl
    (fun grid r =>
      grid.set r (fitRowSeq lasso x numPair nCols (rowSlices nCols values r)))
    (List.replicate nRows (List.replicate nCols (List.replicate (2 + numPair * 2) (some 0))))

/-- Row-parallel memory-mapped fitter of `harmonic_fitting_br`: the scratch
memmap starts zero-filled; `pool.starmap` dispatches `_cal_row` for every
row with its precomputed row slice and `range_col`, and each worker writes
only its own row of the backing store.  `order` is the order in which the
row writes land in the shared array: any interleaving of the statically
partitioned workers, i.e. any permutation of `range(n_rows)`. -/
def harmonicFittingBr (lasso : List (List ℚ) → List ℚ → ℚ × List ℚ)
    (x : List (List ℚ)) (numPair nRows nCols : ℕ)
    (values : List (ℕ → ℕ → Option ℚ)) (order : List ℕ) : List (List (List (Option ℚ))) :=
  order.foldl
    (fun grid r =>
      grid.set r (calRow lasso x numPair nCols (rowSlices nCols values r) (List.range nCols)))
    (List.replicate nRows (List.replicate nCols (List.replicate (2 + numPair * 2) (some 0))))

/-- Coefficient vector of pixel `(r, c)` in a fitted grid. -/
def pixelAt (grid : List (List (List (Option ℚ)))) (r c : ℕ) : List (Option ℚ) :=
  (grid.getD r []).getD c []

/-! ## `_guidedfilter` (guided_filter.py lines 32–64)

Images are functions from an abstract pixel-index type `ι` to exact values.
The box mean `cv2.boxFilter(·, -1, (ksize, ksize))` is abstracted as a
parameter `box` (the kernel size is folded into it); the arithmetic between
the box-filter calls is embedded exactly, including the literal
`eps + 0.0001` guard added to the variance. -/

/-- Model of `_guidedfilter`: local means of guide, target, guide·target and
guide·guide; `a = cov/(var + (eps + 0.0001))`; `b = mean_img − a·mean_guided`;
output `q = box(a)·guide + box(b)`. -/
def guidedfilter {ι : Type} (box : (ι → ℚ) → (ι → ℚ)) (fsrc src : ι → ℚ)
    (eps : ℚ) : ι → ℚ :=
  let meanGuided := box fsrc
  let meanImg := box src
  let meanGi := box (fun p => fsrc p * src p)
  let meanGg := box (fun p => fsrc p * fsrc p)
  let covGi := fun p => meanGi p - meanGuided p * meanImg p
  let varG := fun p => meanGg p - meanGuided p * meanGuided p
  let a := fun p => covGi p / (varG p + (eps + 1 / 10000))
  let b := fun p => meanImg p - a p * meanGuided p
  let meanA := box a
  let meanB := box b
  fun p => meanA p * fsrc p + meanB p

/-- Local covariance of guide and target under a box mean `box`:
`cov_gi = mean_gi - mean_guided * mean_img`. -/
def covOf {ι : Type} (box : (ι → ℚ) → (ι → ℚ)) (fsrc src : ι → ℚ) (p : ι) : ℚ :=
  box (fun q => fsrc q * src q) p - box fsrc p * box src p

/-- Local variance of the guide under a box mean `box`:
`var_g = mean_gg - mean_guided * mean_guided`. -/
def varOf {ι : Type} (box : (ι → ℚ) → (ι → ℚ)) (fsrc : ι → ℚ) (p : ι) : ℚ :=
  box (fun q => fsrc q * fsrc q) p - box fsrc p * box fsrc p

/-! ## `guided_filter` no-data handling (guided_filter.py lines 93–117)

Raw band pixels are modelled by `Pix`: either NaN or a numeric value, so
that the two sentinel tests of the source — `np.isnan(band_raw)` when the
declared no-data value is NaN, and `band_raw == novalue` otherwise — are
distinguishable.  The numeric filtering pipeline applied to the
marker-substituted band is abstracted as `filt`. -/

/-- Raw raster sample: NaN or a numeric value. -/
inductive Pix where
  | nan : Pix
  | val (q : ℚ) : Pix
deriving DecidableEq, Repr

/-- Predicate `np.isnan` on a raw sample. -/
def Pix.isnan : Pix → Bool
  | .nan => true
  | .val _ => false

/-- Model of IEEE `==` on raw samples: NaN compares unequal to everything. -/
def Pix.feq : Pix → Pix → Bool
  | .val a, .val b => a == b
  | _, _ => false

/-- Source band: raw samples plus the declared no-data value
(`GetNoDataValue()`, `none` when undeclared). -/
structure SrcBand (ι : Type) where
  raw : ι → Pix
  noData : Option Pix

/-- Output band: filtered samples plus the no-data value set on it, if any. -/
structure OutBand (ι : Type) where
  out : ι → Pix
  noData : Option Pix

/-- Source raster: its bands and its georeferencing. -/
structure Raster (ι G P : Type) where
  bands : List (SrcBand ι)
  geoTransform : G
  projection : P

/-- Output raster produced by `guided_filter`. -/
structure OutRaster (ι G P : Type) where
  bands : List (OutBand ι)
  geoTransform : G
  projection : P

/-- Mask of no-data locations: `np.isnan(band_raw)` when the declared
sentinel is NaN, else `band_raw == novalue`. -/
def noDataMask {ι : Type} (nv : Pix) (raw : ι → Pix) : ι → Bool :=
  if nv.isnan then fun p => (raw p).isnan else fun p => Pix.feq (raw p) nv

/-- Marker substitution before filtering:
`band = np.where(mask, -9999, band_raw)`. -/
def maskedBand {ι : Type} (nv : Pix) (raw : ι → Pix) : ι → Pix :=
  fun p => if noDataMask nv raw p then Pix.val (-9999) else raw p

/-- Per-band body of `guided_filter` (lines 93–111): when a no-data value is
declared, substitute the marker `-9999` at masked locations, filter, restore
the raw values at masked locations, and set the source no-data value on the
output band; when undeclared, filter the whole band and set none. -/
def processBand {ι : Type} (filt : (ι → Pix) → (ι → Pix)) (b : SrcBand ι) : OutBand ι :=
  match b.noData with
  | some nv =>
      let bandFilter := filt (maskedBand nv b.raw)
      let out : ι → Pix := fun p => if noDataMask nv b.raw p then b.raw p else bandFilter p
      ⟨out, some nv⟩
  | none => ⟨filt b.raw, none⟩

/-- Whole-raster body of `guided_filter`: process every band, then copy the
source geotransform and projection onto the output. -/
def guidedFilterRaster {ι G P : Type} (filt : (ι → Pix) → (ι → Pix))
    (img : Raster ι G P) : OutRaster ι G P :=
  ⟨img.bands.map (processBand filt), img.geoTransform, img.projection⟩

/-! ## Scratch-file lifetime of `harmonic_fitting_br`
(preprocess_level3.py lines 362–365 and 405–418)

The function body is straight-line Python with no try/finally: it creates
`tmp_{tile_index}.dat` with `np.memmap(..., mode="w+")`, runs the parallel
fit, writes the output raster, and only then calls `os.unlink`.  `fitOk`
abstracts whether the fit (`pool.starmap`) raises: when it raises, the
exception propagates and the function is exited before the output write and
the unlink. -/

/-- Filesystem footprint of one `harmonic_fitting_br` call. -/
structure BrFs where
  tmpExists : Bool
  outWritten : Bool
deriving DecidableEq, Repr

/-- State before `harmonic_fitting_br` starts. -/
def BrFs.init : BrFs := ⟨false, false⟩

/-- Effect of `np.memmap("tmp_{tile_index}.dat", mode="w+", ...)`. -/
def createScratch (s : BrFs) : BrFs := { s with tmpExists := true }

/-- Effect of writing the coefficients into the output GTiff. -/
def writeOutput (s : BrFs) : BrFs := { s with outWritten := true }

/-- Effect of `os.unlink("tmp_{tile_index}.dat")`. -/
def removeScratch (s : BrFs) : BrFs := { s with tmpExists := false }

/-- Scratch-file lifecycle of `harmonic_fitting_br`: create the memmap,
then — only if the fit does not raise — write the output and unlink. -/
def brScratchRun (fitOk : Bool) : BrFs :=
  let s1 := createScratch BrFs.init
  if fitOk then removeScratch (writeOutput s1)
  else s1

/-! ## Batch tallies of `s1_harmonic_batch` / `s2_wasp_batch`
(preprocess_level3.py lines 516–542 and 706–720)

The loops increment `success_count` when `executor.submit(...) is True` and
`failure_count` otherwise, then call `drain()` and `close()`.
`fixed_thread_pool_executor.py` itself is not under src/, so `submit` is
modelled from the spec. -/

/-- Modelled from the spec: `FixedThreadPoolExecutor.submit` (missing module
`fixed_thread_pool_executor.py`); §4.5 states that `submit` returns whether
the task was accepted for execution, not whether it ultimately succeeded,
and that while the pool is open excess submissions queue, so every
submission to an open pool is accepted. -/
def submitAccepted (closed : Bool) : Bool := !closed

/-- Tallying loop of the batch drivers: one entry of `outcomes` per
submitted unit, recording whether that unit's task eventually succeeded;
the pool stays open for the whole loop, and the counter inspects only the
value returned by `submit`. -/
def batchCounts (outcomes : List Bool) : ℕ × ℕ :=
  outcomes.foldl
    (fun counts _ =>
      if submitAccepted false then (counts.1 + 1, counts.2) else (counts.1, counts.2 + 1))
    (0, 0)

/-- Number of units whose task succeeded. -/
def numSucceeded (outcomes : List Bool) : ℕ := (outcomes.filter id).length

/-- Number of units whose task failed. -/
def numFailed (outcomes : List Bool) : ℕ := (outcomes.filter (fun b => !b)).length

/-! ## BoundedWorkPool (`FixedThreadPoolExecutor`)

Modelled from the spec: the module `fixed_thread_pool_executor.py` is
imported by src/ but absent from it, so the pool of §4.5 and §5 is embedded
as a labelled transition system.  Tasks are identified by numbers; a step
is enabled or not (`Option`); a worker may start a queued task only when a
slot is free; `drain` is the pair beginDrain/endDrain, with endDrain
enabled only once the queue and the running set are empty. -/

/-- State of a bounded work pool. -/
structure PoolState where
  capacity : ℕ
  queued : List ℕ
  running : List ℕ
  done : List ℕ
  submitted : List ℕ
  draining : Bool
  closed : Bool
deriving DecidableEq, Repr

/-- Events of the pool transition system. -/
inductive PoolEvent where
  | submit (t : ℕ)
  | start
  | finish (t : ℕ)
  | beginDrain
  | endDrain
  | close
deriving DecidableEq, Repr

/-- Freshly constructed pool of capacity `n`. -/
def initPool (n : ℕ) : PoolState :=
  ⟨n, [], [], [], [], false, false⟩

/-- Modelled from the spec: one transition of the pool (§4.5, §5).  `none`
means the event is disabled in this state: a submit to a closed or draining
pool is rejected, a task starts only when a worker slot is free, endDrain
fires only when every previously submitted task has finished. -/
def poolStep (s : PoolState) : PoolEvent → Option PoolState
  | .submit t =>
      if s.closed ∨ s.draining then none
      else some { s with queued := s.queued ++ [t], submitted := s.submitted ++ [t] }
  | .start =>
      if s.queued ≠ [] ∧ s.running.length < s.capacity then
        some { s with queued := s.queued.tail, running := s.queued.headD 0 :: s.running }
      else none
  | .finish t =>
      if t ∈ s.running then
        some { s with running := s.running.erase t, done := t :: s.done }
      else none
  | .beginDrain => some { s with draining := true }
  | .endDrain =>
      if s.queued = [] ∧ s.running = [] ∧ s.draining then
        some { s with draining := false }
      else none
  | .close =>
      if s.queued = [] ∧ s.running = [] then some { s with closed := true }
      else none

/-- Run of the pool: apply the enabled events of a trace in order, skipping
the disabled ones. -/
def runPool (n : ℕ) (events : List PoolEvent) : PoolState :=
  events.foldl (fun s e => (poolStep s e).getD s) (initPool n)

/-- Inductive invariant of the pool: the capacity is the constructed one,
at most that many tasks run concurrently, and every submitted task is
queued, running or done. -/
def PoolInv (n : ℕ) (s : PoolState) : Prop :=
  s.capacity = n ∧ s.running.length ≤ n ∧
    s.queued.length + s.running.length + s.done.length = s.submitted.length

/-! # Theorems -/

/-- C3 counterexample: the dates 2020-01-10, 2020-05-29, 2021-01-05,
2021-06-09 have the DOY sequence [10, 150, 5, 160], which is not
non-decreasing, so the adjustment runs; it produces [0, 140, 360, 150],
which is not monotonically non-decreasing (360 > 150), refuting the claim
that the final coordinate sequence is always non-decreasing. -/
theorem getDoy_wrap_not_monotone :
    ¬ (doySeq [(⟨2020, 1, 10⟩ : Date), ⟨2020, 5, 29⟩, ⟨2021, 1, 5⟩,
        ⟨2021, 6, 9⟩]).Sorted (· ≤ ·) ∧
    getDoy [(⟨2020, 1, 10⟩ : Date), ⟨2020, 5, 29⟩, ⟨2021, 1, 5⟩, ⟨2021, 6, 9⟩] 365
      = [0, 140, 360, 150] ∧
    ¬ (getDoy [(⟨2020, 1, 10⟩ : Date), ⟨2020, 5, 29⟩, ⟨2021, 1, 5⟩,
        ⟨2021, 6, 9⟩] 365).Sorted (· ≤ ·) := by
  refine ⟨by decide, by decide, by decide⟩

/-- C3 amended: when the DOY sequence of the date-sorted series consists of
a single year-boundary crossing — a non-decreasing prefix starting at and
bounded below by the first DOY, followed by a non-decreasing block of DOYs
strictly below the first — and every DOY lies in `[1, freq + 1]`, then the
aligner subtracts the first DOY from every value and adds `freq` to every
resulting negative value, and the result is monotonically non-decreasing
and lies within `[0, freq]`, hence spans at most one synthetic period; a
DOY sequence that is already non-decreasing is returned unmodified, and the
adjustment runs exactly when the sequence is not non-decreasing. -/
theorem adjustDoy_single_crossing (freq start : ℤ) (p s doys : List ℤ)
    (hd : doys = p ++ s) (hp : p ≠ []) (hstart : p.headD 0 = start)
    (hsp : p.Sorted (· ≤ ·)) (hss : s.Sorted (· ≤ ·))
    (hpge : ∀ a ∈ p, start ≤ a) (hslt : ∀ a ∈ s, a < start)
    (hbound : ∀ a ∈ doys, 1 ≤ a ∧ a ≤ freq + 1) :
    adjustDoy doys start freq
      = p.map (fun d => d - start) ++ s.map (fun d => d - start + freq) ∧
    (adjustDoy doys start freq).Sorted (· ≤ ·) ∧
    (∀ a ∈ adjustDoy doys start freq, 0 ≤ a ∧ a ≤ freq) ∧
    (∀ (dates : List Date) (f : ℤ), (doySeq dates).Sorted (· ≤ ·) →
      getDoy dates f = doySeq dates) ∧
    (∀ (dates : List Date) (f : ℤ), ¬ (doySeq dates).Sorted (· ≤ ·) →
      getDoy dates f = adjustDoy (doySeq dates) ((doySeq dates).headD 0) f) := by
  have hstartmem : start ∈ p := by
    cases p with
    | nil => exact absurd rfl hp
    | cons a p2 =>
        simp only [List.headD_cons] at hstart
        rw [← hstart]
        exact List.mem_cons_self a p2
  have hstart1 : 1 ≤ start :=
    (hbound start (hd ▸ List.mem_append_left s hstartmem)).1
  have hstartub : start ≤ freq + 1 :=
    (hbound start (hd ▸ List.mem_append_left s hstartmem)).2
  have heq : adjustDoy doys start freq
      = p.map (fun d => d - start) ++ s.map (fun d => d - start + freq) := by
    unfold adjustDoy
    rw [hd, List.map_append, List.map_append, List.map_map, List.map_map]
    congr 1
    · refine List.map_congr_left (fun d hdp => ?_)
      have h0 : (0 : ℤ) ≤ d - start := by
        have := hpge d hdp
        omega
      simp only [Function.comp_apply]
      rw [if_pos h0]
    · refine List.map_congr_left (fun d hds => ?_)
      have h0 : ¬ (0 : ℤ) ≤ d - start := by
        have := hslt d hds
        omega
      simp only [Function.comp_apply]
      rw [if_neg h0]
      omega
  refine ⟨heq, ?_, ?_, ?_, ?_⟩
  · rw [heq]
    unfold List.Sorted
    rw [List.pairwise_append, List.pairwise_map, List.pairwise_map]
    refine ⟨hsp.imp (fun hab => by omega), hss.imp (fun hab => by omega), ?_⟩
    rintro a hma b hmb
    obtain ⟨d1, hd1, rfl⟩ := List.mem_map.mp hma
    obtain ⟨d2, hd2, rfl⟩ := List.mem_map.mp hmb
    have hub1 : d1 ≤ freq + 1 :=
      (hbound d1 (hd ▸ List.mem_append_left s hd1)).2
    have hlb2 : 1 ≤ d2 :=
      (hbound d2 (hd ▸ List.mem_append_right p hd2)).1
    omega
  · intro a ha
    rw [heq] at ha
    rcases List.mem_append.mp ha with hm | hm
    · obtain ⟨d, hdm, rfl⟩ := List.mem_map.mp hm
      have h1 := hpge d hdm
      have h2 := (hbound d (hd ▸ List.mem_append_left s hdm)).2
      omega
    · obtain ⟨d, hdm, rfl⟩ := List.mem_map.mp hm
      have h1 := hslt d hdm
      have h2 := (hbound d (hd ▸ List.mem_append_right p hdm)).1
      omega
  · intro dates f hsorted
    unfold getDoy
    rw [if_pos (show sortInts (doySeq dates) = doySeq dates from
      List.Sorted.insertionSort_eq hsorted)]
  · intro dates f hunsorted
    unfold getDoy
    rw [if_neg (show ¬ sortInts (doySeq dates) = doySeq dates from fun hfix =>
      hunsorted (by
        rw [← hfix]
        exact List.sorted_insertionSort (· ≤ ·) (doySeq dates)))]

/-- Witness for C3 (amended) at the DOY sequence [300, 330, 20, 50],
`start = 300`, `freq = 365`: adjusted to [0, 30, 85, 115], sorted. -/
theorem adjustDoy_single_crossing_witness :
    ([300, 330, 20, 50] : List ℤ) = [300, 330] ++ [20, 50] ∧
    adjustDoy [300, 330, 20, 50] 300 365 = [0, 30, 85, 115] ∧
    (adjustDoy [300, 330, 20, 50] 300 365).Sorted (· ≤ ·) :=
  ⟨rfl, by decide,
    (adjustDoy_single_crossing 365 300 [300, 330] [20, 50] [300, 330, 20, 50]
      rfl (by decide) rfl (by decide) (by decide) (by decide) (by decide)
      (by decide)).2.1⟩

/-- C2: the design matrix built by `_getVariable` for `n = 1 + 2*n_pairs`
columns has shape `(m, 1 + 2*n_pairs)` (its type); column 0 equals the raw
coordinate values; every column `j ≥ 1` holds
`cos(2·π·ceil(j/2)·t/freq − (j mod 2)·π/2)`; even `j` yields the pure
cosine term (zero phase) and odd `j` the sine-phase term (phase `π/2`). -/
theorem getVariable_columns (piQ : ℚ) (cosQ : ℚ → ℚ) (freq : ℚ) (m k : ℕ)
    (dayArr : Fin m → ℚ) (i : Fin m) (j : Fin (1 + 2 * k)) :
    ((j : ℕ) = 0 → getVariable piQ cosQ freq m dayArr (1 + 2 * k) i j = dayArr i) ∧
    (1 ≤ (j : ℕ) →
      getVariable piQ cosQ freq m dayArr (1 + 2 * k) i j
        = cosQ ((2 * piQ * ((⌈((j : ℕ) : ℚ) / 2⌉ : ℤ) : ℚ) * dayArr i) / freq
            - (((j : ℕ) % 2 : ℕ) : ℚ) * piQ / 2)) ∧
    ((j : ℕ) % 2 = 0 → 1 ≤ (j : ℕ) →
      getVariable piQ cosQ freq m dayArr (1 + 2 * k) i j
        = cosQ ((2 * piQ * ((⌈((j : ℕ) : ℚ) / 2⌉ : ℤ) : ℚ) * dayArr i) / freq)) ∧
    ((j : ℕ) % 2 = 1 →
      getVariable piQ cosQ freq m dayArr (1 + 2 * k) i j
        = cosQ ((2 * piQ * ((⌈((j : ℕ) : ℚ) / 2⌉ : ℤ) : ℚ) * dayArr i) / freq
            - piQ / 2)) := by
  unfold getVariable
  simp only [Matrix.of_apply]
  refine ⟨fun h0 => by simp [h0], fun h1 => ?_, fun he h1 => ?_, fun ho => ?_⟩
  · have hne : ¬ (j : ℕ) = 0 := by omega
    simp [hne]
  · have hne : ¬ (j : ℕ) = 0 := by omega
    simp [hne, he]
  · have hne : ¬ (j : ℕ) = 0 := by omega
    simp [hne, ho]

/-- Witness for C2 at `freq = 365`, `n_pairs = 2`, one observation `t = 5`,
column 2 (the first pure cosine column). -/
theorem getVariable_columns_witness :
    ((2 : Fin (1 + 2 * 2)) : ℕ) % 2 = 0 ∧ 1 ≤ ((2 : Fin (1 + 2 * 2)) : ℕ) ∧
    getVariable 3 id 365 1 (fun _ => 5) (1 + 2 * 2) 0 2
      = id ((2 * 3 * ((⌈(((2 : Fin (1 + 2 * 2)) : ℕ) : ℚ) / 2⌉ : ℤ) : ℚ) * 5) / 365) :=
  ⟨by decide, by decide,
    (getVariable_columns 3 id 365 1 2 (fun _ => 5) 0 2).2.2.1 (by decide) (by decide)⟩

/-- C4: the guided filter of `_guidedfilter` outputs, at every pixel,
`box(a)·guide + box(b)` where `a = cov(guide,target)/(var(guide)+ε+1e-4)`
and `b = mean(target) − a·mean(guide)` are built from box-filtered local
means; and the additive `1e-4` makes the divisor strictly positive — in
particular nonzero — whenever `var(guide) + ε` is non-negative. -/
theorem guidedfilter_spec {ι : Type} (box : (ι → ℚ) → (ι → ℚ)) (fsrc src : ι → ℚ)
    (eps : ℚ) (p : ι) :
    (guidedfilter box fsrc src eps p
      = box (fun q => covOf box fsrc src q / (varOf box fsrc q + eps + 1 / 10000)) p
          * fsrc p
        + box (fun q => box src q
            - covOf box fsrc src q / (varOf box fsrc q + eps + 1 / 10000)
                * box fsrc q) p) ∧
    (0 ≤ varOf box fsrc p + eps →
      0 < varOf box fsrc p + eps + 1 / 10000 ∧
        varOf box fsrc p + eps + 1 / 10000 ≠ 0) := by
  constructor
  · have ha : (fun q => (box (fun r => fsrc r * src r) q - box fsrc q * box src q)
        / ((box (fun r => fsrc r * fsrc r) q - box fsrc q * box fsrc q)
            + (eps + 1 / 10000)))
        = fun q => covOf box fsrc src q / (varOf box fsrc q + eps + 1 / 10000) := by
      funext q
      rw [covOf, varOf, add_assoc]
    unfold guidedfilter
    rw [ha]
  · intro hnn
    have hpos : 0 < varOf box fsrc p + eps + 1 / 10000 := by linarith
    exact ⟨hpos, ne_of_gt hpos⟩

/-- Witness for C4: identity box filter on a one-pixel image, `ε = 0`. -/
theorem guidedfilter_spec_witness :
    ((0 : ℚ) ≤ varOf (ι := Fin 1) id (fun _ => 0) 0 + 0) ∧
    (0 < varOf (ι := Fin 1) id (fun _ => 0) 0 + 0 + 1 / 10000 ∧
      varOf (ι := Fin 1) id (fun _ => 0) 0 + 0 + 1 / 10000 ≠ 0) :=
  ⟨by norm_num [varOf],
    (guidedfilter_spec (ι := Fin 1) id (fun _ => 0) (fun _ => 0) 0 0).2
      (by norm_num [varOf])⟩

/-- Reduction of `processBand` on a band with a declared no-data value. -/
theorem processBand_some {ι : Type} (filt : (ι → Pix) → (ι → Pix)) (b : SrcBand ι)
    (nv : Pix) (h : b.noData = some nv) :
    processBand filt b
      = ⟨fun p => if noDataMask nv b.raw p then b.raw p
          else filt (maskedBand nv b.raw) p, some nv⟩ := by
  unfold processBand
  rw [h]

/-- Reduction of `processBand` on a band with no declared no-data value. -/
theorem processBand_none {ι : Type} (filt : (ι → Pix) → (ι → Pix)) (b : SrcBand ι)
    (h : b.noData = none) :
    processBand filt b = ⟨filt b.raw, none⟩ := by
  unfold processBand
  rw [h]

/-- Semantic characterisation of the no-data mask of `guided_filter`. -/
theorem noDataMask_iff {ι : Type} (nv : Pix) (raw : ι → Pix) (p : ι) :
    noDataMask nv raw p = true ↔
      ((nv = Pix.nan ∧ raw p = Pix.nan) ∨ (nv ≠ Pix.nan ∧ raw p = nv)) := by
  cases nv with
  | nan =>
      cases hr : raw p with
      | nan => simp [noDataMask, Pix.isnan, hr]
      | val q => simp [noDataMask, Pix.isnan, hr]
  | val q =>
      cases hr : raw p with
      | nan => simp [noDataMask, Pix.isnan, Pix.feq, hr]
      | val q2 => simp [noDataMask, Pix.isnan, Pix.feq, hr]

/-- C5: for a band with a declared no-data value, every no-data location
(pixel equal to the sentinel, or NaN when the sentinel is NaN) is passed to
the filter as the marker `-9999` and is restored bit-identically in the
output; the output band carries the source no-data value, and the output
raster carries the source geotransform and projection unchanged. -/
theorem guided_filter_preserves_nodata {ι G P : Type}
    (filt : (ι → Pix) → (ι → Pix)) (img : Raster ι G P) (i : ℕ) (b : SrcBand ι)
    (nv : Pix) (hb : img.bands[i]? = some b) (hnv : b.noData = some nv) :
    ∃ ob : OutBand ι,
      (guidedFilterRaster filt img).bands[i]? = some ob ∧
      ob.out = (fun p => if noDataMask nv b.raw p then b.raw p
                 else filt (maskedBand nv b.raw) p) ∧
      (∀ p, noDataMask nv b.raw p = true →
        ob.out p = b.raw p ∧ maskedBand nv b.raw p = Pix.val (-9999)) ∧
      (∀ p, noDataMask nv b.raw p = true ↔
        ((nv = Pix.nan ∧ b.raw p = Pix.nan) ∨ (nv ≠ Pix.nan ∧ b.raw p = nv))) ∧
      ob.noData = some nv ∧
      (guidedFilterRaster filt img).geoTransform = img.geoTransform ∧
      (guidedFilterRaster filt img).projection = img.projection := by
  refine ⟨processBand filt b, ?_, ?_, ?_, fun p => noDataMask_iff nv b.raw p, ?_, rfl, rfl⟩
  · show (img.bands.map (processBand filt))[i]? = some (processBand filt b)
    rw [List.getElem?_map, hb]
    rfl
  · rw [processBand_some filt b nv hnv]
  · intro p hp
    rw [processBand_some filt b nv hnv]
    exact ⟨by simp [hp], by simp [maskedBand, hp]⟩
  · rw [processBand_some filt b nv hnv]

/-- Witness for C5: one-band, one-pixel raster whose sentinel is NaN and
whose only pixel is NaN, filtered with the identity filter. -/
theorem guided_filter_preserves_nodata_witness :
    ∃ ob : OutBand (Fin 1),
      (guidedFilterRaster id
        (⟨[⟨fun _ => Pix.nan, some Pix.nan⟩], 7, 3⟩ : Raster (Fin 1) ℕ ℕ)).bands[0]?
        = some ob ∧
      ob.noData = some Pix.nan ∧ ob.out 0 = Pix.nan := by
  obtain ⟨ob, hget, hout, hmask, hiff, hnd, hgeo, hproj⟩ :=
    guided_filter_preserves_nodata (G := ℕ) (P := ℕ) id
      (⟨[⟨fun _ => Pix.nan, some Pix.nan⟩], 7, 3⟩ : Raster (Fin 1) ℕ ℕ) 0
      ⟨fun _ => Pix.nan, some Pix.nan⟩ Pix.nan rfl rfl
  refine ⟨ob, hget, hnd, ?_⟩
  have h0 := (hmask 0 rfl).1
  exact h0

/-- C10: for a band whose no-data value is undeclared, `guided_filter`
filters the entire band with no marker substitution and no restoration, and
the output band carries no no-data value. -/
theorem guided_filter_no_sentinel_passthrough {ι G P : Type}
    (filt : (ι → Pix) → (ι → Pix)) (img : Raster ι G P) (i : ℕ) (b : SrcBand ι)
    (hb : img.bands[i]? = some b) (hnv : b.noData = none) :
    (guidedFilterRaster filt img).bands[i]? = some ⟨filt b.raw, none⟩ := by
  show (img.bands.map (processBand filt))[i]? = some ⟨filt b.raw, none⟩
  rw [List.getElem?_map, hb]
  simp [processBand_none filt b hnv]

/-- Witness for C10: one-band raster with no declared no-data value. -/
theorem guided_filter_no_sentinel_passthrough_witness :
    (guidedFilterRaster id
      (⟨[⟨fun _ => Pix.val 4, none⟩], 7, 3⟩ : Raster (Fin 1) ℕ ℕ)).bands[0]?
      = some ⟨id (fun _ => Pix.val 4), none⟩ :=
  guided_filter_no_sentinel_passthrough (G := ℕ) (P := ℕ) id
    (⟨[⟨fun _ => Pix.val 4, none⟩], 7, 3⟩ : Raster (Fin 1) ℕ ℕ) 0
    ⟨fun _ => Pix.val 4, none⟩ rfl rfl

/-- C7 counterexample: when the parallel fit fails (raises), the run of
`harmonic_fitting_br` ends with the scratch file `tmp_{tile}.dat` still
present — the source reaches `os.unlink` only on the fall-through path, so
the claimed removal on the failure path is false. -/
theorem brScratch_not_removed_on_failure :
    (brScratchRun false).tmpExists = true ∧ (brScratchRun false).outWritten = false := by
  decide

/-- C7 amended: the scratch file is created before the parallel fit begins
and, on the success path, is removed after the results are copied into the
final output raster; on the failure path the function is exited before the
output write and the unlink, and the scratch file persists. -/
theorem brScratch_lifecycle :
    (createScratch BrFs.init).tmpExists = true ∧
    (brScratchRun true).tmpExists = false ∧
    (brScratchRun true).outWritten = true ∧
    (brScratchRun false).tmpExists = true ∧
    (brScratchRun false).outWritten = false := by
  decide

/-- C8 counterexample: one unit whose submission is accepted but whose task
fails; the tally of `s1_harmonic_batch` counts it as a success, so the
summary counts do not equal the numbers of units whose tasks succeeded and
failed. -/
theorem batchCounts_not_outcomes :
    batchCounts [false] = (1, 0) ∧
    numSucceeded [false] = 0 ∧ numFailed [false] = 1 ∧
    (batchCounts [false]).1 ≠ numSucceeded [false] ∧
    (batchCounts [false]).2 ≠ numFailed [false] := by
  decide

/-- Tally fold of the batch drivers from an arbitrary starting pair. -/
theorem batchCounts_foldl (outcomes : List Bool) (a b : ℕ) :
    outcomes.foldl
      (fun counts _ =>
        if submitAccepted false then (counts.1 + 1, counts.2) else (counts.1, counts.2 + 1))
      (a, b) = (a + outcomes.length, b) := by
  induction outcomes generalizing a b with
  | nil => simp
  | cons o rest ih =>
      rw [List.foldl_cons]
      rw [show (if submitAccepted false = true then ((a, b).1 + 1, (a, b).2)
        else ((a, b).1, (a, b).2 + 1)) = ((a + 1 : ℕ), b) from rfl]
      rw [ih (a + 1) b, List.length_cons]
      have h : a + 1 + rest.length = a + (rest.length + 1) := by omega
      rw [h]

/-- C8 amended: `success_count` and `failure_count` tally the value returned
by `submit`, i.e. whether each submission was accepted by the (open) pool —
not the outcome of the task; with the pool open every submission is
accepted, so the summary is `(n, 0)` for `n` submitted units regardless of
how many tasks failed. -/
theorem batchCounts_counts_submissions (outcomes : List Bool) :
    batchCounts outcomes = (outcomes.length, 0) := by
  unfold batchCounts
  rw [batchCounts_foldl outcomes 0 0]
  simp

/-- One pool step preserves the pool invariant. -/
theorem poolStep_inv (n : ℕ) (s s2 : PoolState) (e : PoolEvent)
    (hinv : PoolInv n s) (hstep : poolStep s e = some s2) : PoolInv n s2 := by
  obtain ⟨hcap, hrun, hcount⟩ := hinv
  cases e with
  | submit t =>
      simp only [poolStep] at hstep
      by_cases hc : s.closed = true ∨ s.draining = true
      · rw [if_pos hc] at hstep
        exact absurd hstep (by simp)
      · rw [if_neg hc] at hstep
        injection hstep with h
        subst h
        exact ⟨hcap, hrun, by simp [List.length_append]; omega⟩
  | start =>
      simp only [poolStep] at hstep
      by_cases hc : s.queued ≠ [] ∧ s.running.length < s.capacity
      · rw [if_pos hc] at hstep
        injection hstep with h
        subst h
        refine ⟨hcap, ?_, ?_⟩
        · simp only [List.length_cons]
          omega
        · have hq : s.queued.length ≠ 0 := by
            simpa [List.length_eq_zero] using hc.1
          simp only [List.length_tail, List.length_cons]
          omega
      · rw [if_neg hc] at hstep
        exact absurd hstep (by simp)
  | finish t =>
      simp only [poolStep] at hstep
      by_cases hc : t ∈ s.running
      · rw [if_pos hc] at hstep
        injection hstep with h
        subst h
        have hl : (s.running.erase t).length = s.running.length - 1 :=
          List.length_erase_of_mem hc
        have hpos : 0 < s.running.length := List.length_pos.mpr (by
          intro hnil
          rw [hnil] at hc
          exact absurd hc (List.not_mem_nil t))
        refine ⟨hcap, ?_, ?_⟩
        · rw [hl]; omega
        · simp only [hl, List.length_cons]
          omega
      · rw [if_neg hc] at hstep
        exact absurd hstep (by simp)
  | beginDrain =>
      simp only [poolStep] at hstep
      injection hstep with h
      subst h
      exact ⟨hcap, hrun, hcount⟩
  | endDrain =>
      simp only [poolStep] at hstep
      by_cases hc : s.queued = [] ∧ s.running = [] ∧ s.draining = true
      · rw [if_pos hc] at hstep
        injection hstep with h
        subst h
        exact ⟨hcap, hrun, hcount⟩
      · rw [if_neg hc] at hstep
        exact absurd hstep (by simp)
  | close =>
      simp only [poolStep] at hstep
      by_cases hc : s.queued = [] ∧ s.running = []
      · rw [if_pos hc] at hstep
        injection hstep with h
        subst h
        exact ⟨hcap, hrun, hcount⟩
      · rw [if_neg hc] at hstep
        exact absurd hstep (by simp)

/-- Every reachable pool state satisfies the pool invariant. -/
theorem runPool_inv (n : ℕ) (events : List PoolEvent) : PoolInv n (runPool n events) := by
  have hinit : PoolInv n (initPool n) := ⟨rfl, by simp [initPool], by simp [initPool]⟩
  unfold runPool
  revert hinit
  generalize initPool n = s0
  induction events generalizing s0 with
  | nil => intro hs; simpa using hs
  | cons e rest ih =>
      intro hs
      rw [List.foldl_cons]
      apply ih
      cases hstep : poolStep s0 e with
      | none => simpa using hs
      | some s2 =>
          simp only [Option.getD_some]
          exact poolStep_inv n s0 s2 e hs hstep

/-- C9: for a pool of capacity `N` reachable by any event trace, at most `N`
tasks are running; a submit while draining or after close is rejected; a
submit to an open pool is accepted by queueing it without touching the
running set (no extra worker is spawned); and the drain step can complete
only when every previously submitted task has finished. -/
theorem boundedWorkPool_contract (n : ℕ) (events : List PoolEvent) :
    (runPool n events).running.length ≤ n ∧
    (∀ t, (runPool n events).closed = true →
      poolStep (runPool n events) (PoolEvent.submit t) = none) ∧
    (∀ t, (runPool n events).draining = true →
      poolStep (runPool n events) (PoolEvent.submit t) = none) ∧
    (∀ t, (runPool n events).closed = false → (runPool n events).draining = false →
      poolStep (runPool n events) (PoolEvent.submit t)
        = some { runPool n events with
                 queued := (runPool n events).queued ++ [t],
                 submitted := (runPool n events).submitted ++ [t] }) ∧
    (∀ s2, poolStep (runPool n events) PoolEvent.endDrain = some s2 →
      (runPool n events).queued = [] ∧ (runPool n events).running = [] ∧
      (runPool n events).done.length = (runPool n events).submitted.length) := by
  obtain ⟨hcap, hrun, hcount⟩ := runPool_inv n events
  refine ⟨hrun, ?_, ?_, ?_, ?_⟩
  · intro t hclosed
    simp only [poolStep]
    rw [if_pos (Or.inl hclosed)]
  · intro t hdrain
    simp only [poolStep]
    rw [if_pos (Or.inr hdrain)]
  · intro t hclosed hdrain
    simp only [poolStep]
    rw [if_neg (by simp [hclosed, hdrain])]
  · intro s2 hstep
    simp only [poolStep] at hstep
    by_cases hc : (runPool n events).queued = [] ∧ (runPool n events).running = [] ∧
        (runPool n events).draining = true
    · obtain ⟨hq, hr, _⟩ := hc
      refine ⟨hq, hr, ?_⟩
      rw [hq, hr] at hcount
      simpa using hcount
    · rw [if_neg hc] at hstep
      exact absurd hstep (by simp)

/-- Witness for C9: a pool of capacity 2 with one queued task, set draining;
a further submit is rejected. -/
theorem boundedWorkPool_contract_witness :
    (runPool 2 [PoolEvent.submit 0, PoolEvent.beginDrain]).draining = true ∧
    poolStep (runPool 2 [PoolEvent.submit 0, PoolEvent.beginDrain])
      (PoolEvent.submit 5) = none :=
  ⟨by decide,
    (boundedWorkPool_contract 2 [PoolEvent.submit 0, PoolEvent.beginDrain]).2.2.1 5
      (by decide)⟩

/-- Write-by-index folds: folding `set r (f r)` over a duplicate-free index
list writes `f i` at every visited index below the length and leaves every
other position unchanged. -/
theorem foldl_set_getElem? {α : Type} (f : ℕ → α) (order : List ℕ) (init : List α)
    (hnd : order.Nodup) (i : ℕ) :
    (order.foldl (fun g r => g.set r (f r)) init)[i]?
      = if i ∈ order ∧ i < init.length then some (f i) else init[i]? := by
  induction order generalizing init with
  | nil => simp
  | cons r rest ih =>
      obtain ⟨hr, hrest⟩ := List.nodup_cons.mp hnd
      rw [List.foldl_cons, ih (init.set r (f r)) hrest, List.length_set]
      by_cases hmem : i ∈ rest
      · by_cases hlen : i < init.length
        · rw [if_pos ⟨hmem, hlen⟩, if_pos ⟨List.mem_cons_of_mem r hmem, hlen⟩]
        · rw [if_neg (fun h => hlen h.2), if_neg (fun h => hlen h.2),
            List.getElem?_set]
          by_cases hri : r = i
          · subst hri
            rw [if_pos rfl, if_neg hlen]
            exact (List.getElem?_eq_none (by omega)).symm
          · rw [if_neg hri]
      · rw [if_neg (fun h => hmem h.1), List.getElem?_set]
        by_cases hri : r = i
        · subst hri
          by_cases hlen : r < init.length
          · rw [if_pos rfl, if_pos hlen, if_pos ⟨List.mem_cons_self r rest, hlen⟩]
          · rw [if_pos rfl, if_neg hlen, if_neg (fun h => hlen h.2)]
            exact (List.getElem?_eq_none (by omega)).symm
        · rw [if_neg hri]
          have hni : ¬ (i ∈ r :: rest ∧ i < init.length) := by
            rintro ⟨hmem2, _⟩
            rcases List.mem_cons.mp hmem2 with h1 | h2
            · exact hri h1.symm
            · exact hmem h2
          rw [if_neg hni]

/-- Write-by-index folds preserve the length of the written list. -/
theorem foldl_set_length {α : Type} (f : ℕ → α) (order : List ℕ) (init : List α) :
    (order.foldl (fun g r => g.set r (f r)) init).length = init.length := by
  induction order generalizing init with
  | nil => rfl
  | cons r rest ih =>
      rw [List.foldl_cons, ih (init.set r (f r)), List.length_set]

/-- Entry `c < nCols` of the sequential row fit is the pixel fit of the
column-`c` series of the row slice. -/
theorem fitRowSeq_getElem? (lasso : List (List ℚ) → List ℚ → ℚ × List ℚ)
    (x : List (List ℚ)) (numPair nCols : ℕ) (valuesRow : List (List (Option ℚ)))
    (c : ℕ) (hc : c < nCols) :
    (fitRowSeq lasso x numPair nCols valuesRow)[c]?
      = some (fitPixelSeq lasso x numPair (valuesRow.map (fun v => v.getD c none))) := by
  have h := foldl_set_getElem?
    (fun col => fitPixelSeq lasso x numPair (valuesRow.map (fun v => v.getD col none)))
    (List.range nCols)
    (List.replicate nCols (List.replicate (2 + numPair * 2) (some (0 : ℚ))))
    (List.nodup_range nCols) c
  rw [List.length_replicate, if_pos ⟨List.mem_range.mpr hc, hc⟩] at h
  exact h

/-- Invoked on the full column range, the worker body `_cal_row` computes
exactly the sequential row fit: the two duplicated code bodies coincide. -/
theorem calRow_range_eq (lasso : List (List ℚ) → List ℚ → ℚ × List ℚ)
    (x : List (List ℚ)) (numPair nCols : ℕ) (valuesRow : List (List (Option ℚ))) :
    calRow lasso x numPair nCols valuesRow (List.range nCols)
      = fitRowSeq lasso x numPair nCols valuesRow := rfl

/-- Row `r < nRows` of the row-threaded fitter is the sequential fit of the
row slice at `r`. -/
theorem harmonicFitting_getElem? (lasso : List (List ℚ) → List ℚ → ℚ × List ℚ)
    (x : List (List ℚ)) (numPair nRows nCols : ℕ)
    (values : List (ℕ → ℕ → Option ℚ)) (r : ℕ) (hr : r < nRows) :
    (harmonicFitting lasso x numPair nRows nCols values)[r]?
      = some (fitRowSeq lasso x numPair nCols (rowSlices nCols values r)) := by
  have h := foldl_set_getElem?
    (fun row => fitRowSeq lasso x numPair nCols (rowSlices nCols values row))
    (List.range nRows)
    (List.replicate nRows
      (List.replicate nCols (List.replicate (2 + numPair * 2) (some (0 : ℚ)))))
    (List.nodup_range nRows) r
  rw [List.length_replicate, if_pos ⟨List.mem_range.mpr hr, hr⟩] at h
  exact h

/-- Row `r < nRows` of the row-parallel fitter, for any completion order of
the statically partitioned workers, is the worker fit of the row slice at
`r`. -/
theorem harmonicFittingBr_getElem? (lasso : List (List ℚ) → List ℚ → ℚ × List ℚ)
    (x : List (List ℚ)) (numPair nRows nCols : ℕ)
    (values : List (ℕ → ℕ → Option ℚ)) (order : List ℕ)
    (hperm : order.Perm (List.range nRows)) (r : ℕ) (hr : r < nRows) :
    (harmonicFittingBr lasso x numPair nRows nCols values order)[r]?
      = some (calRow lasso x numPair nCols (rowSlices nCols values r)
          (List.range nCols)) := by
  have hnd : order.Nodup := hperm.nodup_iff.mpr (List.nodup_range nRows)
  have hmem : r ∈ order := hperm.mem_iff.mpr (List.mem_range.mpr hr)
  have h := foldl_set_getElem?
    (fun row => calRow lasso x numPair nCols (rowSlices nCols values row)
      (List.range nCols))
    order
    (List.replicate nRows
      (List.replicate nCols (List.replicate (2 + numPair * 2) (some (0 : ℚ)))))
    hnd r
  rw [List.length_replicate, if_pos ⟨hmem, hr⟩] at h
  exact h

/-- Column-`c` series of the row slice at `r` is the per-observation pixel
series at `(r, c)`. -/
theorem rowSlices_getD (nCols : ℕ) (values : List (ℕ → ℕ → Option ℚ)) (r c : ℕ)
    (hc : c < nCols) :
    (rowSlices nCols values r).map (fun v => v.getD c none)
      = values.map (fun img => img r c) := by
  unfold rowSlices
  rw [List.map_map]
  refine List.map_congr_left (fun img hm => ?_)
  simp only [Function.comp_apply]
  rw [List.getD_eq_getElem?_getD, List.getElem?_map, List.getElem?_range hc]
  rfl

/-- Pixel `(r, c)` of the row-threaded fitter is the per-pixel fit of the
series at `(r, c)`. -/
theorem pixelAt_harmonicFitting (lasso : List (List ℚ) → List ℚ → ℚ × List ℚ)
    (x : List (List ℚ)) (numPair nRows nCols : ℕ)
    (values : List (ℕ → ℕ → Option ℚ)) (r c : ℕ) (hr : r < nRows) (hc : c < nCols) :
    pixelAt (harmonicFitting lasso x numPair nRows nCols values) r c
      = fitPixelSeq lasso x numPair (values.map (fun img => img r c)) := by
  unfold pixelAt
  rw [List.getD_eq_getElem?_getD (harmonicFitting lasso x numPair nRows nCols values) r [],
    harmonicFitting_getElem? lasso x numPair nRows nCols values r hr,
    Option.getD_some, List.getD_eq_getElem?_getD,
    fitRowSeq_getElem? lasso x numPair nCols (rowSlices nCols values r) c hc,
    Option.getD_some, rowSlices_getD nCols values r c hc]

/-- Pixel `(r, c)` of the row-parallel fitter is the same per-pixel fit. -/
theorem pixelAt_harmonicFittingBr (lasso : List (List ℚ) → List ℚ → ℚ × List ℚ)
    (x : List (List ℚ)) (numPair nRows nCols : ℕ)
    (values : List (ℕ → ℕ → Option ℚ)) (order : List ℕ)
    (hperm : order.Perm (List.range nRows)) (r c : ℕ) (hr : r < nRows)
    (hc : c < nCols) :
    pixelAt (harmonicFittingBr lasso x numPair nRows nCols values order) r c
      = fitPixelSeq lasso x numPair (values.map (fun img => img r c)) := by
  unfold pixelAt
  rw [List.getD_eq_getElem?_getD
      (harmonicFittingBr lasso x numPair nRows nCols values order) r [],
    harmonicFittingBr_getElem? lasso x numPair nRows nCols values order hperm r hr,
    Option.getD_some, calRow_range_eq, List.getD_eq_getElem?_getD,
    fitRowSeq_getElem? lasso x numPair nCols (rowSlices nCols values r) c hc,
    Option.getD_some, rowSlices_getD nCols values r c hc]

/-- Per-pixel fit of an all-NaN series: every (design-row, observation)
pair is dropped, no valid observation remains, and the emitted vector is
`2 + 2·n_pairs` NaNs. -/
theorem fitPixelSeq_all_none (lasso : List (List ℚ) → List ℚ → ℚ × List ℚ)
    (x : List (List ℚ)) (numPair : ℕ) (y : List (Option ℚ))
    (hy : ∀ v ∈ y, v = none) :
    fitPixelSeq lasso x numPair y = List.replicate (2 + numPair * 2) none := by
  have hvalid : (x.zip y).filterMap
      (fun p => p.2.map (fun v => (p.1, v))) = [] := by
    rw [List.filterMap_eq_nil_iff]
    rintro ⟨a, b⟩ hm
    have hb := (List.of_mem_zip hm).2
    rw [hy b hb]
    rfl
  simp only [fitPixelSeq, hvalid]
  rw [show 2 + numPair * 2 = (1 + numPair * 2) + 1 from by omega,
    List.replicate_succ]
  simp

/-- The two fitter grids agree: any worker completion order writes the same
coefficients as the sequential row loop. -/
theorem harmonicFittingBr_eq (lasso : List (List ℚ) → List ℚ → ℚ × List ℚ)
    (x : List (List ℚ)) (numPair nRows nCols : ℕ)
    (values : List (ℕ → ℕ → Option ℚ)) (order : List ℕ)
    (hperm : order.Perm (List.range nRows)) :
    harmonicFittingBr lasso x numPair nRows nCols values order
      = harmonicFitting lasso x numPair nRows nCols values := by
  apply List.ext_getElem?
  intro i
  by_cases hi : i < nRows
  · rw [harmonicFittingBr_getElem? lasso x numPair nRows nCols values order hperm i hi,
      harmonicFitting_getElem? lasso x numPair nRows nCols values i hi, calRow_range_eq]
  · have h1 : (harmonicFittingBr lasso x numPair nRows nCols values order).length
        = nRows := by
      unfold harmonicFittingBr
      rw [foldl_set_length, List.length_replicate]
    have h2 : (harmonicFitting lasso x numPair nRows nCols values).length = nRows := by
      unfold harmonicFitting
      rw [foldl_set_length, List.length_replicate]
    rw [List.getElem?_eq_none (by omega), List.getElem?_eq_none (by omega)]

/-- C1: for every design matrix, regularisation (inside the shared `lasso`
routine) and input stack, the row-threaded fitter of `harmonic_fitting` and
the row-parallel memory-mapped fitter of `harmonic_fitting_br` (whatever
order the statically partitioned row writes land in) produce identical
coefficient grids, and identical coefficient vectors at every pixel; a
pixel whose whole series is no-data yields the all-NaN vector of length
`2 + 2·n_pairs` under both strategies. -/
theorem harmonic_fitting_strategies_equiv
    (lasso : List (List ℚ) → List ℚ → ℚ × List ℚ) (x : List (List ℚ))
    (numPair nRows nCols : ℕ) (values : List (ℕ → ℕ → Option ℚ))
    (order : List ℕ) (hperm : order.Perm (List.range nRows)) :
    harmonicFittingBr lasso x numPair nRows nCols values order
      = harmonicFitting lasso x numPair nRows nCols values ∧
    (∀ r c, r < nRows → c < nCols →
      pixelAt (harmonicFittingBr lasso x numPair nRows nCols values order) r c
        = pixelAt (harmonicFitting lasso x numPair nRows nCols values) r c) ∧
    (∀ r c, r < nRows → c < nCols → (∀ img ∈ values, img r c = none) →
      pixelAt (harmonicFittingBr lasso x numPair nRows nCols values order) r c
        = List.replicate (2 + numPair * 2) none ∧
      pixelAt (harmonicFitting lasso x numPair nRows nCols values) r c
        = List.replicate (2 + numPair * 2) none ∧
      (pixelAt (harmonicFitting lasso x numPair nRows nCols values) r c).length
        = 2 + numPair * 2) := by
  refine ⟨harmonicFittingBr_eq lasso x numPair nRows nCols values order hperm,
    fun r c hr hc => ?_, fun r c hr hc hnone => ?_⟩
  · rw [pixelAt_harmonicFittingBr lasso x numPair nRows nCols values order hperm r c hr hc,
      pixelAt_harmonicFitting lasso x numPair nRows nCols values r c hr hc]
  · have hy : ∀ v ∈ values.map (fun img => img r c), v = (none : Option ℚ) := by
      intro v hv
      obtain ⟨img, hi, rfl⟩ := List.mem_map.mp hv
      exact hnone img hi
    have hseq : pixelAt (harmonicFitting lasso x numPair nRows nCols values) r c
        = List.replicate (2 + numPair * 2) none := by
      rw [pixelAt_harmonicFitting lasso x numPair nRows nCols values r c hr hc]
      exact fitPixelSeq_all_none lasso x numPair _ hy
    refine ⟨?_, hseq, ?_⟩
    · rw [pixelAt_harmonicFittingBr lasso x numPair nRows nCols values order hperm r c hr hc]
      exact fitPixelSeq_all_none lasso x numPair _ hy
    · rw [hseq, List.length_replicate]

/-- Witness for C1: a 1×1 grid with a single all-NaN observation image,
worker order `[0]`, `n_pairs = 0`. -/
theorem harmonic_fitting_strategies_equiv_witness :
    ([0] : List ℕ).Perm (List.range 1) ∧
    pixelAt (harmonicFittingBr (fun _ _ => ((0 : ℚ), [])) [] 0 1 1
      [fun _ _ => none] [0]) 0 0 = List.replicate (2 + 0 * 2) none :=
  ⟨by decide,
    ((harmonic_fitting_strategies_equiv (fun _ _ => ((0 : ℚ), [])) [] 0 1 1
      [fun _ _ => none] [0] (by decide)).2.2 0 0 (by omega) (by omega)
      (fun img hm => by
        rw [List.mem_singleton] at hm
        subst hm
        rfl)).1⟩

/-- C6: a (design-row, observation) pair whose observation is no-data is
dropped before fitting — removing such a pair from the series does not
change the per-pixel result; when no valid observation remains the emitted
vector is `2 + 2·n_pairs` NaNs of that exact length; and every pixel of the
grid fit is the per-pixel fit of its own series (the fitter is total and
continues with the next pixel, never aborting the tile). -/
theorem fit_drops_nodata (lasso : List (List ℚ) → List ℚ → ℚ × List ℚ)
    (numPair : ℕ) (x x1 x2 : List (List ℚ)) (xr : List ℚ)
    (y1 y2 : List (Option ℚ)) (nRows nCols : ℕ)
    (values : List (ℕ → ℕ → Option ℚ)) (r c : ℕ)
    (hlen : x1.length = y1.length) (hr : r < nRows) (hc : c < nCols) :
    fitPixelSeq lasso (x1 ++ xr :: x2) numPair (y1 ++ none :: y2)
      = fitPixelSeq lasso (x1 ++ x2) numPair (y1 ++ y2) ∧
    ((∀ v ∈ y1 ++ y2, v = (none : Option ℚ)) →
      fitPixelSeq lasso (x1 ++ x2) numPair (y1 ++ y2)
        = List.replicate (2 + numPair * 2) none ∧
      (fitPixelSeq lasso (x1 ++ x2) numPair (y1 ++ y2)).length
        = 2 + numPair * 2) ∧
    pixelAt (harmonicFitting lasso x numPair nRows nCols values) r c
      = fitPixelSeq lasso x numPair (values.map (fun img => img r c)) := by
  refine ⟨?_, fun hnone => ?_, ?_⟩
  · have hz : (x1 ++ xr :: x2).zip (y1 ++ none :: y2)
        = x1.zip y1 ++ (xr, (none : Option ℚ)) :: x2.zip y2 := by
      rw [List.zip_append hlen, List.zip_cons_cons]
    have hz2 : (x1 ++ x2).zip (y1 ++ y2) = x1.zip y1 ++ x2.zip y2 :=
      List.zip_append hlen
    simp only [fitPixelSeq, hz, hz2, List.filterMap_append, List.filterMap_cons]
    rfl
  · have h := fitPixelSeq_all_none lasso (x1 ++ x2) numPair (y1 ++ y2) hnone
    exact ⟨h, by rw [h, List.length_replicate]⟩
  · exact pixelAt_harmonicFitting lasso x numPair nRows nCols values r c hr hc

/-- Witness for C6: dropping a NaN observation from the empty series. -/
theorem fit_drops_nodata_witness :
    ([] : List (List ℚ)).length = ([] : List (Option ℚ)).length ∧
    fitPixelSeq (fun _ _ => ((0 : ℚ), [])) ([] ++ [] :: []) 0 ([] ++ none :: [])
      = fitPixelSeq (fun _ _ => ((0 : ℚ), [])) ([] ++ []) 0 ([] ++ []) :=
  ⟨rfl,
    (fit_drops_nodata (fun _ _ => ((0 : ℚ), [])) 0 [] [] [] [] [] [] 1 1
      [fun _ _ => none] 0 0 rfl (by omega) (by omega)).1⟩

end SentinelPot
